import Mathlib

/-!
Verification of the SARIF comparison core: a shallow embedding of the
grouping, category-resolution, and comparison-metric code of the
`sarif-comparer` repository (App, ComparisonView, ResultsTable components),
together with theorems settling the specification claims about it.

Embedding conventions: JS strings are Lean `String`s and their character
operations act on `String.data`; JS numbers holding counts are `ℕ`, deltas
are `ℤ`, and percentage arithmetic is exact rational arithmetic over `ℚ`;
JS objects used as insertion-ordered maps are association lists built by a
fold that appends a fresh key at the end and updates an existing key in
place; optional/absent JS values are `Option`.  Presentation-only fields of
the SARIF records (messages, locations) that no claim touches are elided.
-/

/-- A SARIF result (one finding): its producing rule id and optional severity
level, as in `src/types/sarif.ts` (`Result`). -/
structure Result where
  ruleId : String
  level : Option String
deriving DecidableEq

/-- SARIF rule metadata, as in `src/types/sarif.ts` (`Rule`):
`defaultLevel` embeds `defaultConfiguration?.level`, `tags` embeds
`properties?.tags`. -/
structure Rule where
  id : String
  defaultLevel : Option String
  tags : Option (List String)
deriving DecidableEq

/-- A SARIF run, as in `src/types/sarif.ts` (`Run`): the tool driver name and
the optional rule list (`tool.driver.name`, `tool.driver.rules`). -/
structure Run where
  toolName : String
  rules : Option (List Rule)
deriving DecidableEq

/-- One uploaded dataset as held in App state: results grouped by rule id,
plus the run it came from. -/
structure Sarif where
  results : List (String × List Result)
  run : Run
deriving DecidableEq

/-- `pre` is an initial segment of `s`; embeds JS `String.startsWith` on the
underlying character sequences. -/
def startsWithChars : List Char → List Char → Bool
  | [], _ => true
  | _ :: _, [] => false
  | p :: ps, c :: cs => p = c && startsWithChars ps cs

/-- The tag filter shared verbatim by both components:
`tag.startsWith('CWE:') || tag.startsWith('CWE-')`. -/
def hasCWEPrefixTag (tag : String) : Bool :=
  startsWithChars "CWE:".data tag.data || startsWithChars "CWE-".data tag.data

/-- One attempt of the regex `/CWE[-:](\d+)/` anchored at the start of `s`:
literal `CWE`, one of `-`/`:`, then a maximal nonempty digit run (the capture
group). -/
def tryMatch (s : List Char) : Option (List Char) :=
  match s with
  | c1 :: c2 :: c3 :: sep :: rest =>
    if c1 = 'C' ∧ c2 = 'W' ∧ c3 = 'E' ∧ (sep = '-' ∨ sep = ':') then
      let ds := rest.takeWhile Char.isDigit
      if ds.isEmpty then none else some ds
    else none
  | _ => none

/-- JS `s.match(/CWE[-:](\d+)/)`, returning the capture group of the leftmost
match: try every start position left to right. -/
def firstCWEMatch : List Char → Option (List Char)
  | [] => none
  | c :: rest =>
    match tryMatch (c :: rest) with
    | some ds => some ds
    | none => firstCWEMatch rest

/-- Whitespace recognized by the embedded JS `trim`. -/
def isWS (c : Char) : Bool :=
  c = ' ' || c = '\t' || c = '\n' || c = '\r'

/-- JS `String.trim`: drop whitespace from both ends. -/
def jsTrim (s : List Char) : List Char :=
  ((s.dropWhile isWS).reverse.dropWhile isWS).reverse

/-- JS `s.replace(pat, rep)` with a string pattern: replace the first
(leftmost) occurrence of `pat`, if any. -/
def replFirst (pat rep : List Char) : List Char → List Char
  | [] => if startsWithChars pat [] then rep ++ List.drop pat.length [] else []
  | c :: cs =>
    if startsWithChars pat (c :: cs) then rep ++ List.drop pat.length (c :: cs)
    else c :: replFirst pat rep cs

/-- Insertion into a JS object acting as an insertion-ordered multimap: if the
key exists, append the value to its list; otherwise add the key at the end.
This is the step both grouping reduces perform
(`if (!acc[k]) acc[k] = []; acc[k].push(v)`). -/
def pushGroup {α : Type} (acc : List (String × List α)) (key : String) (v : α) :
    List (String × List α) :=
  if acc.any (fun p => p.1 = key) then
    acc.map (fun p => if p.1 = key then (p.1, p.2 ++ [v]) else p)
  else acc ++ [(key, [v])]

/-- Value of a JS object at a key, with `undefined` as `none`. -/
def lookupGroup {α : Type} (acc : List (String × List α)) (key : String) : List α :=
  ((acc.find? (fun p => p.1 = key)).map Prod.snd).getD []

namespace App

/-- The grouping reduce inside `handleFileUpload` (App component): partition
an ordered finding list by `ruleId`, preserving order within each group. -/
def groupByRuleId (rs : List Result) : List (String × List Result) :=
  rs.foldl (fun acc r => pushGroup acc r.ruleId r) []

end App

namespace ComparisonView

/-- `getCWEFromTags` of the ComparisonView component: first prefix-matching
tag, then the leftmost `/CWE[-:](\d+)/` match in it, normalized to
`CWE-<digits>`. -/
def getCWEFromTags (tags : List String) : Option String :=
  match tags.find? hasCWEPrefixTag with
  | none => none
  | some cweTag =>
    match firstCWEMatch cweTag.data with
    | none => none
    | some ds => some ("CWE-" ++ String.mk ds)

/-- `getRuleTags` of the ComparisonView component:
`run.tool.driver.rules?.find(r => r.id === ruleId)?.properties?.tags || []`. -/
def getRuleTags (run : Run) (ruleId : String) : List String :=
  (((run.rules.getD []).find? (fun r => r.id = ruleId)).bind Rule.tags).getD []

/-- The composed category resolver of the comparison path: tags of the rule,
then `getCWEFromTags`. -/
def resolveCWE (run : Run) (ruleId : String) : Option String :=
  getCWEFromTags (getRuleTags run ruleId)

/-- Aggregated groups of one dataset: CWE id to its `(ruleId, items)` groups. -/
abbrev CweGroups := List (String × List (String × List Result))

/-- `groupByCWE` of the ComparisonView component: group the per-rule result
groups by resolved CWE, skipping rules whose resolver yields none. -/
def groupByCWE (results : List (String × List Result)) (run : Run) : CweGroups :=
  results.foldl
    (fun acc p =>
      match getCWEFromTags (getRuleTags run p.1) with
      | some cwe => pushGroup acc cwe p
      | none => acc)
    []

/-- `cweGroups = sarifs.map(sarif => groupByCWE(sarif.results, sarif.run))`. -/
def cweGroupsOf (sarifs : List Sarif) : List CweGroups :=
  sarifs.map (fun sarif => groupByCWE sarif.results sarif.run)

/-- One step of JS `Set` construction: keep the first occurrence of each
element, in insertion order. -/
def insertUniq (acc : List String) (c : String) : List String :=
  if c ∈ acc then acc else acc ++ [c]

/-- `[...new Set(l)]`: deduplicate keeping first occurrences. -/
def setDedup (l : List String) : List String :=
  l.foldl insertUniq []

/-- `allCWEs = [...new Set(cweGroups.flatMap(group => Object.keys(group)))].sort()`. -/
def allCWEs (sarifs : List Sarif) : List String :=
  (setDedup ((cweGroupsOf sarifs).flatMap (fun group => group.map Prod.fst))).mergeSort
    (fun a b => a ≤ b)

/-- Per-dataset finding count of one CWE:
`group[cwe]?.reduce((sum, { items }) => sum + items.length, 0) || 0`. -/
def countForCWE (group : CweGroups) (cwe : String) : ℕ :=
  match group.find? (fun p => p.1 = cwe) with
  | none => 0
  | some p => p.2.foldl (fun sum q => sum + q.2.length) 0

/-- `deltas = findings.slice(1).map((count, i) => count - findings[i])`. -/
def deltasOf (findings : List ℕ) : List ℤ :=
  (findings.zip (findings.drop 1)).map (fun p => (p.2 : ℤ) - (p.1 : ℤ))

/-- The overlap percentage of the first dataset's count against another
dataset's count, exactly as the `overlaps` callback computes it:
`0` when both are `0`, else `min/max * 100` behind a `total === 0` guard. -/
def overlapPct (firstCount count : ℕ) : ℚ :=
  if firstCount = 0 ∧ count = 0 then 0
  else
    if max count firstCount = 0 then 0
    else ((min count firstCount : ℚ) / (max count firstCount : ℚ)) * 100

/-- `overlaps = findings.slice(1).map(count => ...)` with `firstCount = findings[0]`. -/
def overlapsOf (findings : List ℕ) : List ℚ :=
  (findings.drop 1).map (fun count => overlapPct (findings.getD 0 0) count)

/-- One Comparison Row of `summaryData`. -/
structure SummaryRow where
  cwe : String
  findings : List ℕ
  deltas : List ℤ
  overlaps : List ℚ
deriving DecidableEq

/-- The body of `summaryData.map`: the Comparison Row of one CWE. -/
def summaryRow (cweGroups : List CweGroups) (cwe : String) : SummaryRow :=
  let findings := cweGroups.map (fun group => countForCWE group cwe)
  { cwe := cwe
    findings := findings
    deltas := deltasOf findings
    overlaps := overlapsOf findings }

/-- `summaryData = allCWEs.map(cwe => ...)`. -/
def summaryData (sarifs : List Sarif) : List SummaryRow :=
  (allCWEs sarifs).map (summaryRow (cweGroupsOf sarifs))

/-- `averageOverlaps = summaryData[0]?.overlaps.map((_, index) => ...) || []`:
per pairing index of the first row, the reduce-sum of that index over all
rows divided by the row count; the empty list when there is no first row. -/
def averageOverlaps (sarifs : List Sarif) : List ℚ :=
  let sd := summaryData sarifs
  match sd.head? with
  | none => []
  | some r0 =>
    (List.range r0.overlaps.length).map
      (fun index =>
        let sum := sd.foldl (fun acc data => acc + data.overlaps.getD index 0) 0
        if 0 < sd.length then sum / (sd.length : ℚ) else 0)

end ComparisonView

namespace ResultsTable

/-- `getCWEFromTags` of the ResultsTable component: same first-tag selection,
but the result is `cweTag.replace('CWE:', 'CWE-').trim()` — no digit check and
no normalization beyond the separator swap. -/
def getCWEFromTags (tags : List String) : Option String :=
  match tags.find? hasCWEPrefixTag with
  | none => none
  | some cweTag => some (String.mk (jsTrim (replFirst "CWE:".data "CWE-".data cweTag.data)))

/-- `getRuleTags` of the ResultsTable component (its `run` prop is optional). -/
def getRuleTags (run : Option Run) (ruleId : String) : List String :=
  ((((run.map Run.rules).bind id).getD []).find? (fun r => r.id = ruleId)).bind Rule.tags
    |>.getD []

/-- The `ruleConfigurations` reduce: rule id to default level, for rules with
a truthy (nonempty) id and a truthy default level; object assignment
overwrites an existing key. -/
def ruleConfigurations (run : Option Run) : List (String × String) :=
  (((run.map Run.rules).bind id).getD []).foldl
    (fun acc r =>
      match r.defaultLevel with
      | some lvl =>
        if r.id ≠ "" ∧ lvl ≠ "" then
          if acc.any (fun p => p.1 = r.id) then
            acc.map (fun p => if p.1 = r.id then (p.1, lvl) else p)
          else acc ++ [(r.id, lvl)]
        else acc
      | none => acc)
    []

/-- Lookup in a string-valued JS object, `undefined` as `none`. -/
def lookupStr (m : List (String × String)) (k : String) : Option String :=
  (m.find? (fun p => p.1 = k)).map Prod.snd

/-- JS `a || b` on an optional string `a`: `b` when `a` is absent or empty
(falsy), else the value of `a`. -/
def jsOrStr (a : Option String) (b : String) : String :=
  match a with
  | some s => if s = "" then b else s
  | none => b

/-- The severity expression used for a rule group by the sort key of
`sortedEntries`, the summary-tab display, and the `exportToExcel` rows:
`items[0]?.level || ruleConfigurations[ruleId] || 'none'`. -/
def entrySeverity (cfg : List (String × String)) (ruleId : String)
    (items : List Result) : String :=
  jsOrStr (items.head?.bind Result.level) (jsOrStr (lookupStr cfg ruleId) "none")

/-- `getSeverityWeight` of the ResultsTable component. -/
def getSeverityWeight (severity : String) : ℕ :=
  match severity.toLower with
  | "error" => 0
  | "warning" => 1
  | "info" => 2
  | "note" => 3
  | _ => 4

/-- `sortedEntries = Object.entries(results).sort(...)`: stable sort of the
rule groups by severity weight of `entrySeverity`. -/
def sortedEntries (run : Option Run) (results : List (String × List Result)) :
    List (String × List Result) :=
  results.mergeSort
    (fun a b =>
      getSeverityWeight (entrySeverity (ruleConfigurations run) a.1 a.2) ≤
        getSeverityWeight (entrySeverity (ruleConfigurations run) b.1 b.2))

/-- `totalResults = Object.values(results).reduce((sum, items) => sum + items.length, 0)`. -/
def totalResults (results : List (String × List Result)) : ℕ :=
  results.foldl (fun sum p => sum + p.2.length) 0

/-- One row of the `exportToExcel` data array (before the TOTAL row). -/
structure ExportRow where
  ruleId : String
  cwe : String
  tags : List String
  count : ℕ
  severity : String
deriving DecidableEq

/-- The per-rule rows of `exportToExcel`: one row per sorted entry, with the
severity computed by the shared severity expression. -/
def exportRows (run : Option Run) (results : List (String × List Result)) :
    List ExportRow :=
  (sortedEntries run results).map
    (fun p =>
      { ruleId := p.1
        cwe := (getCWEFromTags (getRuleTags run p.1)).getD ""
        tags := getRuleTags run p.1
        count := p.2.length
        severity := entrySeverity (ruleConfigurations run) p.1 p.2 })

end ResultsTable

open ComparisonView in
/-- Unfolding of `deltasOf` on a list with at least two elements. -/
theorem deltasOf_cons_cons (a b : ℕ) (t : List ℕ) :
    deltasOf (a :: b :: t) = ((b : ℤ) - (a : ℤ)) :: deltasOf (b :: t) := by
  simp [deltasOf, List.zip_cons_cons]

open ComparisonView in
/-- Positional characterization of `deltasOf`. -/
theorem deltasOf_getD :
    ∀ (fs : List ℕ) (i : ℕ), i + 1 < fs.length →
      (deltasOf fs).getD i 0 = ((fs.getD (i + 1) 0 : ℕ) : ℤ) - ((fs.getD i 0 : ℕ) : ℤ)
  | [], i, h => by simp at h
  | [a], i, h => by simp at h
  | a :: b :: t, 0, _ => by simp [deltasOf_cons_cons]
  | a :: b :: t, i + 1, h => by
    have ih := deltasOf_getD (b :: t) i (by simpa using Nat.lt_of_succ_lt_succ h)
    simpa [deltasOf_cons_cons] using ih

open ComparisonView in
/-- Positional characterization of `overlapsOf`. -/
theorem overlapsOf_getD (fs : List ℕ) (i : ℕ) (h : i + 1 < fs.length) :
    (overlapsOf fs).getD i 0 = overlapPct (fs.getD 0 0) (fs.getD (i + 1) 0) := by
  have h1 : fs[i + 1]? = some fs[i + 1] := List.getElem?_eq_getElem h
  simp [overlapsOf, List.getD_eq_getElem?_getD, List.getElem?_map, List.getElem?_drop,
    show 1 + i = i + 1 by omega, h1]

open ComparisonView in
/-- C3: for every Comparison Row with first-dataset count `a = findings[0]`
and other count `b = findings[i+1]`: if both are `0` the overlap is `0`,
otherwise it is `min(a,b) / max(a,b) * 100` with a positive denominator, and
it always lies in `[0, 100]`; concretely `(4,2) ↦ 50`, `(3,3) ↦ 100`,
`(0,5) ↦ 0`. -/
theorem c3_overlap_formula :
    (∀ (cweGroups : List CweGroups) (cwe : String) (i : ℕ),
      i + 1 < (summaryRow cweGroups cwe).findings.length →
      (summaryRow cweGroups cwe).overlaps.getD i 0 =
        overlapPct ((summaryRow cweGroups cwe).findings.getD 0 0)
          ((summaryRow cweGroups cwe).findings.getD (i + 1) 0)) ∧
    (∀ a b : ℕ, a = 0 ∧ b = 0 → overlapPct a b = 0) ∧
    (∀ a b : ℕ, ¬(a = 0 ∧ b = 0) →
      overlapPct a b = ((min a b : ℕ) : ℚ) / ((max a b : ℕ) : ℚ) * 100 ∧ 0 < max a b) ∧
    (∀ a b : ℕ, 0 ≤ overlapPct a b ∧ overlapPct a b ≤ 100) ∧
    overlapPct 4 2 = 50 ∧ overlapPct 3 3 = 100 ∧ overlapPct 0 5 = 0 := by
  refine ⟨?_, ?_, ?_, ?_, ?_, ?_, ?_⟩
  · intro cweGroups cwe i h
    exact overlapsOf_getD _ i h
  · intro a b h
    simp [overlapPct, h.1, h.2]
  · intro a b h
    have hmax : 0 < max a b := by omega
    have hmax' : ¬ (max b a = 0) := by omega
    refine ⟨?_, hmax⟩
    simp only [overlapPct, if_neg h, if_neg hmax']
    push_cast
    rw [min_comm ((b : ℕ) : ℚ) ((a : ℕ) : ℚ), max_comm ((b : ℕ) : ℚ) ((a : ℕ) : ℚ)]
  · intro a b
    by_cases h : a = 0 ∧ b = 0
    · simp [overlapPct, h.1, h.2]
    · have hmax : ¬ (max b a = 0) := by omega
      have hmaxQ : (0 : ℚ) < max ((b : ℕ) : ℚ) ((a : ℕ) : ℚ) := by
        have : (0 : ℚ) < ((max b a : ℕ) : ℚ) := by
          exact_mod_cast Nat.pos_of_ne_zero hmax
        convert this using 1
        push_cast
        rfl
      have hle : min ((b : ℕ) : ℚ) ((a : ℕ) : ℚ) ≤ max ((b : ℕ) : ℚ) ((a : ℕ) : ℚ) :=
        min_le_max
      constructor
      · simp only [overlapPct, if_neg h, if_neg hmax]
        positivity
      · simp only [overlapPct, if_neg h, if_neg hmax]
        calc min ((b : ℕ) : ℚ) ((a : ℕ) : ℚ) / max ((b : ℕ) : ℚ) ((a : ℕ) : ℚ) * 100
            ≤ 1 * 100 := by
              apply mul_le_mul_of_nonneg_right _ (by norm_num)
              exact (div_le_one hmaxQ).mpr hle
          _ = 100 := by norm_num
  · norm_num [overlapPct]
  · norm_num [overlapPct]
  · norm_num [overlapPct]

open ComparisonView in
/-- Witness for C3 at a concrete input: two empty datasets give a row whose
single overlap obeys the positional formula, and the `(0,0)` case is `0`. -/
theorem c3_overlap_formula_witness :
    (summaryRow [[], []] "CWE-79").overlaps.getD 0 0 =
      overlapPct ((summaryRow [[], []] "CWE-79").findings.getD 0 0)
        ((summaryRow [[], []] "CWE-79").findings.getD 1 0) ∧
    overlapPct 0 0 = 0 :=
  ⟨c3_overlap_formula.1 [[], []] "CWE-79" 0 (by decide),
    c3_overlap_formula.2.1 0 0 ⟨rfl, rfl⟩⟩

open ComparisonView in
/-- C7: `deltas[i] = findings[i+1] - findings[i]` for every Comparison Row,
and concretely counts `(5, 8)` give delta `+3`, counts `(8, 5)` give `-3`. -/
theorem c7_delta_formula :
    (∀ (cweGroups : List CweGroups) (cwe : String) (i : ℕ),
      i + 1 < (summaryRow cweGroups cwe).findings.length →
      (summaryRow cweGroups cwe).deltas.getD i 0 =
        (((summaryRow cweGroups cwe).findings.getD (i + 1) 0 : ℕ) : ℤ) -
          (((summaryRow cweGroups cwe).findings.getD i 0 : ℕ) : ℤ)) ∧
    deltasOf [5, 8] = [3] ∧ deltasOf [8, 5] = [-3] := by
  refine ⟨?_, by decide, by decide⟩
  intro cweGroups cwe i h
  exact deltasOf_getD _ i h

open ComparisonView in
/-- Witness for C7 at a concrete input: datasets with counts `(0, 0)` for an
absent category still satisfy the positional delta formula. -/
theorem c7_delta_formula_witness :
    (summaryRow [[], []] "CWE-79").deltas.getD 0 0 =
      (((summaryRow [[], []] "CWE-79").findings.getD 1 0 : ℕ) : ℤ) -
        (((summaryRow [[], []] "CWE-79").findings.getD 0 0 : ℕ) : ℤ) :=
  c7_delta_formula.1 [[], []] "CWE-79" 0 (by decide)

/-- C9: the comparison path's resolver takes the digit run from the first
`CWE[-:](\d+)` match anywhere in the selected tag, not only right after the
leading prefix: the tag `CWE-Insecure see CWE-89` fails to match at its start
yet resolves to `CWE-89`. -/
theorem c9_match_anywhere_in_tag :
    ComparisonView.getCWEFromTags ["CWE-Insecure see CWE-89"] = some "CWE-89" ∧
    tryMatch "CWE-Insecure see CWE-89".data = none :=
  ⟨rfl, rfl⟩

/-- `find?` over an append whose left part is all rejected finds the head of
the right part when it is accepted. -/
theorem find?_append_first {α : Type} (p : α → Bool) :
    ∀ (pre : List α) (t : α) (post : List α), (∀ x ∈ pre, p x = false) → p t = true →
      (pre ++ t :: post).find? p = some t
  | [], t, post, _, ht => by simp [List.find?_cons, ht]
  | x :: pre, t, post, hpre, ht => by
    have hx : p x = false := hpre x (by simp)
    simpa [List.find?_cons, hx] using
      find?_append_first p pre t post (fun y hy => hpre y (by simp [hy])) ht

open ComparisonView in
/-- C5: the comparison path's category resolver returns none when the rule is
absent, none when no tag has the `CWE:`/`CWE-` prefix, none when the first
such tag has no `CWE[-:](\d+)` match, and otherwise `CWE-<digits>` from that
first prefix-matching tag; the first prefix-matching tag in list order wins. -/
theorem c5_category_resolver :
    (∀ (run : Run) (ruleId : String),
      (run.rules.getD []).find? (fun r => r.id = ruleId) = none →
      resolveCWE run ruleId = none) ∧
    (∀ (run : Run) (ruleId : String),
      (getRuleTags run ruleId).find? hasCWEPrefixTag = none →
      resolveCWE run ruleId = none) ∧
    (∀ (run : Run) (ruleId : String) (t : String),
      (getRuleTags run ruleId).find? hasCWEPrefixTag = some t →
      firstCWEMatch t.data = none → resolveCWE run ruleId = none) ∧
    (∀ (run : Run) (ruleId : String) (t : String) (ds : List Char),
      (getRuleTags run ruleId).find? hasCWEPrefixTag = some t →
      firstCWEMatch t.data = some ds →
      resolveCWE run ruleId = some ("CWE-" ++ String.mk ds)) ∧
    (∀ (pre : List String) (t : String) (post : List String),
      (∀ x ∈ pre, hasCWEPrefixTag x = false) → hasCWEPrefixTag t = true →
      getCWEFromTags (pre ++ t :: post) = getCWEFromTags [t]) := by
  refine ⟨?_, ?_, ?_, ?_, ?_⟩
  · intro run ruleId h
    simp [resolveCWE, getCWEFromTags, getRuleTags, h]
  · intro run ruleId h
    simp [resolveCWE, getCWEFromTags, h]
  · intro run ruleId t h hm
    simp [resolveCWE, getCWEFromTags, h, hm]
  · intro run ruleId t ds h hm
    simp [resolveCWE, getCWEFromTags, h, hm]
  · intro pre t post hpre ht
    have h1 : (pre ++ t :: post).find? hasCWEPrefixTag = some t :=
      find?_append_first hasCWEPrefixTag pre t post hpre ht
    have h2 : List.find? hasCWEPrefixTag [t] = some t := by simp [List.find?_cons, ht]
    simp [getCWEFromTags, h1, h2]

open ComparisonView in
/-- Witness for C5 at a concrete input: a run whose rule `r1` is tagged
`CWE-79` resolves to `CWE-79`, and a missing rule id resolves to none. -/
theorem c5_category_resolver_witness :
    resolveCWE
        { toolName := "t"
          rules := some [{ id := "r1", defaultLevel := none, tags := some ["CWE-79"] }] }
        "r1" = some "CWE-79" ∧
    resolveCWE
        { toolName := "t"
          rules := some [{ id := "r1", defaultLevel := none, tags := some ["CWE-79"] }] }
        "r2" = none := by
  constructor
  · have h := c5_category_resolver.2.2.2.1
      { toolName := "t"
        rules := some [{ id := "r1", defaultLevel := none, tags := some ["CWE-79"] }] }
      "r1" "CWE-79" ['7', '9'] rfl rfl
    simpa using h
  · exact c5_category_resolver.2.1
      { toolName := "t"
        rules := some [{ id := "r1", defaultLevel := none, tags := some ["CWE-79"] }] }
      "r2" rfl

open ResultsTable in
/-- C10: the per-rule severity used for display, export and the sort key is
`entrySeverity`, and it is determined solely by the group's first finding:
that finding's own nonempty level, else the rule's default level from
`ruleConfigurations`, else `none`; the tail of the group is irrelevant. -/
theorem c10_severity_first_finding_only :
    (∀ (run : Option Run) (results : List (String × List Result)),
      (exportRows run results).map ExportRow.severity =
        (sortedEntries run results).map
          (fun p => entrySeverity (ruleConfigurations run) p.1 p.2)) ∧
    (∀ (cfg : List (String × String)) (ruleId : String) (x : Result)
        (rest rest' : List Result),
      entrySeverity cfg ruleId (x :: rest) = entrySeverity cfg ruleId (x :: rest')) ∧
    (∀ (cfg : List (String × String)) (ruleId : String) (x : Result)
        (rest : List Result) (l : String), x.level = some l → l ≠ "" →
      entrySeverity cfg ruleId (x :: rest) = l) ∧
    (∀ (cfg : List (String × String)) (ruleId : String) (x : Result)
        (rest : List Result), x.level = none ∨ x.level = some "" →
      entrySeverity cfg ruleId (x :: rest) = jsOrStr (lookupStr cfg ruleId) "none") ∧
    (∀ (cfg : List (String × String)) (ruleId : String) (v : String),
      lookupStr cfg ruleId = some v → v ≠ "" →
      jsOrStr (lookupStr cfg ruleId) "none" = v) ∧
    (∀ (cfg : List (String × String)) (ruleId : String),
      lookupStr cfg ruleId = none → jsOrStr (lookupStr cfg ruleId) "none" = "none") := by
  refine ⟨?_, ?_, ?_, ?_, ?_, ?_⟩
  · intro run results
    simp [exportRows, List.map_map]
  · intro cfg ruleId x rest rest'
    rfl
  · intro cfg ruleId x rest l hl hne
    simp [entrySeverity, jsOrStr, hl, hne]
  · intro cfg ruleId x rest h
    rcases h with h | h <;> simp [entrySeverity, jsOrStr, h]
  · intro cfg ruleId v hv hne
    simp [jsOrStr, hv, hne]
  · intro cfg ruleId h
    simp [jsOrStr, h]

open ResultsTable in
/-- Witness for C10 at a concrete input: a group whose first finding has level
`error` keeps severity `error` regardless of a differing second finding. -/
theorem c10_severity_first_finding_only_witness :
    entrySeverity [] "r1"
        [{ ruleId := "r1", level := some "error" },
          { ruleId := "r1", level := some "warning" }] = "error" ∧
    entrySeverity [("r1", "note")] "r1" [{ ruleId := "r1", level := none }] =
      jsOrStr (lookupStr [("r1", "note")] "r1") "none" := by
  constructor
  · exact c10_severity_first_finding_only.2.2.1 [] "r1"
      { ruleId := "r1", level := some "error" }
      [{ ruleId := "r1", level := some "warning" }] "error" rfl (by decide)
  · exact c10_severity_first_finding_only.2.2.2.1 [("r1", "note")] "r1"
      { ruleId := "r1", level := none } [] (Or.inl rfl)

/-- `pushGroup` never changes the key sequence when the key already exists,
and appends it otherwise. -/
theorem pushGroup_keys {α : Type} (acc : List (String × List α)) (key : String) (v : α) :
    (pushGroup acc key v).map Prod.fst =
      if acc.any (fun p => p.1 = key) then acc.map Prod.fst
      else acc.map Prod.fst ++ [key] := by
  unfold pushGroup
  by_cases h : acc.any (fun p => p.1 = key)
  · rw [if_pos h, if_pos h, List.map_map]
    apply List.map_congr_left
    intro p _
    by_cases hp : p.1 = key <;> simp [hp]
  · rw [if_neg h, if_neg h]
    simp

/-- `pushGroup` preserves distinctness of keys. -/
theorem pushGroup_nodup {α : Type} (acc : List (String × List α)) (key : String) (v : α)
    (h : (acc.map Prod.fst).Nodup) : ((pushGroup acc key v).map Prod.fst).Nodup := by
  rw [pushGroup_keys]
  by_cases hk : acc.any (fun p => p.1 = key)
  · rwa [if_pos hk]
  · rw [if_neg hk]
    have hany : acc.any (fun p => p.1 = key) = false := by rwa [Bool.not_eq_true] at hk
    have hnk : key ∉ acc.map Prod.fst := by
      intro hmem
      obtain ⟨p, hp, hpk⟩ := List.mem_map.mp hmem
      have hall := List.any_eq_false.mp hany p hp
      simp [hpk] at hall
    simp [List.nodup_append, h, hnk]

/-- The group of `key'` after `pushGroup acc key v`: gains `v` at the end when
`key' = key`, stays intact otherwise. -/
theorem pushGroup_lookupGroup {α : Type} (acc : List (String × List α)) (key : String)
    (v : α) (key' : String) :
    lookupGroup (pushGroup acc key v) key' =
      if key' = key then lookupGroup acc key ++ [v] else lookupGroup acc key' := by
  unfold pushGroup
  by_cases h : acc.any (fun p => p.1 = key)
  · rw [if_pos h]
    have hfm :
        (acc.map (fun p => if p.1 = key then (p.1, p.2 ++ [v]) else p)).find?
            (fun p => p.1 = key') =
          Option.map (fun p => if p.1 = key then (p.1, p.2 ++ [v]) else p)
            (acc.find? (fun p => p.1 = key')) := by
      have hcomp :
          ((fun p : String × List α => decide (p.1 = key')) ∘
            fun p => if p.1 = key then (p.1, p.2 ++ [v]) else p) =
          fun p : String × List α => decide (p.1 = key') := by
        funext q
        by_cases hq : q.1 = key <;> simp [Function.comp, hq]
      rw [List.find?_map, hcomp]
    by_cases hk : key' = key
    · subst hk
      obtain ⟨p, hp, hpk⟩ := List.any_eq_true.mp h
      have hsome : (acc.find? (fun p => p.1 = key')).isSome :=
        List.find?_isSome.mpr ⟨p, hp, hpk⟩
      obtain ⟨x, hx⟩ := Option.isSome_iff_exists.mp hsome
      have hxk : x.1 = key' := by simpa using List.find?_some hx
      simp [lookupGroup, hfm, hx, hxk]
    · rw [if_neg hk]
      cases hfind : acc.find? (fun p => p.1 = key') with
      | none => simp [lookupGroup, hfm, hfind]
      | some x =>
        have hxk : x.1 = key' := by simpa using List.find?_some hfind
        have hxne : ¬ x.1 = key := by rw [hxk]; exact hk
        simp [lookupGroup, hfm, hfind, hxne]
  · rw [if_neg h]
    have hany : acc.any (fun p => p.1 = key) = false := by rwa [Bool.not_eq_true] at h
    have hnone : acc.find? (fun p => p.1 = key) = none := by
      apply List.find?_eq_none.mpr
      intro p hp
      exact List.any_eq_false.mp hany p hp
    by_cases hk : key' = key
    · subst hk
      simp [lookupGroup, List.find?_append, hnone, List.find?_cons]
    · cases hfind : acc.find? (fun p => p.1 = key') with
      | none =>
        simp [lookupGroup, List.find?_append, hfind, List.find?_cons, if_neg hk,
          Ne.symm hk]
      | some x =>
        simp [lookupGroup, List.find?_append, hfind, if_neg hk]

/-- Sum of group sizes. -/
def sumLen {α : Type} (acc : List (String × List α)) : ℕ :=
  (acc.map (fun p => p.2.length)).sum

/-- Appending one value to the (unique) group of an existing key grows the
total size by exactly one. -/
theorem sumLen_update {α : Type} (key : String) (v : α) :
    ∀ (acc : List (String × List α)), (acc.map Prod.fst).Nodup →
      (∃ p ∈ acc, p.1 = key) →
      sumLen (acc.map (fun p => if p.1 = key then (p.1, p.2 ++ [v]) else p)) =
        sumLen acc + 1
  | [], _, hex => by simp at hex
  | q :: rest, hnd, hex => by
    by_cases hq : q.1 = key
    · have hrest : ∀ p ∈ rest, ¬ p.1 = key := by
        intro p hp hpk
        have : q.1 ∈ rest.map Prod.fst := by
          rw [hq, ← hpk]
          exact List.mem_map.mpr ⟨p, hp, rfl⟩
        exact (List.nodup_cons.mp hnd).1 this
      have hmap : rest.map (fun p => if p.1 = key then (p.1, p.2 ++ [v]) else p) = rest := by
        have h1 : rest.map (fun p => if p.1 = key then (p.1, p.2 ++ [v]) else p) =
            rest.map id :=
          List.map_congr_left (fun p hp => by simp [hrest p hp])
        simpa using h1
      simp [sumLen, hq, hmap]
      omega
    · obtain ⟨p, hp, hpk⟩ := hex
      have hprest : p ∈ rest := by
        cases List.mem_cons.mp hp with
        | inl h => exfalso; exact hq (h ▸ hpk)
        | inr h => exact h
      have ih := sumLen_update key v rest (List.nodup_cons.mp hnd).2 ⟨p, hprest, hpk⟩
      simp [sumLen, hq] at ih ⊢
      omega

/-- `pushGroup` grows the total size by exactly one (given distinct keys). -/
theorem pushGroup_sumLen {α : Type} (acc : List (String × List α)) (key : String) (v : α)
    (hnd : (acc.map Prod.fst).Nodup) : sumLen (pushGroup acc key v) = sumLen acc + 1 := by
  unfold pushGroup
  by_cases h : acc.any (fun p => p.1 = key)
  · rw [if_pos h]
    obtain ⟨p, hp, hpk⟩ := List.any_eq_true.mp h
    exact sumLen_update key v acc hnd ⟨p, hp, by simpa using hpk⟩
  · rw [if_neg h]
    simp [sumLen]

/-- `pushGroup` preserves any per-entry predicate tying entries to their
group key, provided the new value satisfies it at the new key. -/
theorem pushGroup_forall {α : Type} {Q : String → α → Prop}
    {acc : List (String × List α)} {key : String} {v : α}
    (hacc : ∀ g ∈ acc, ∀ e ∈ g.2, Q g.1 e) (hv : Q key v) :
    ∀ g ∈ pushGroup acc key v, ∀ e ∈ g.2, Q g.1 e := by
  intro g hg e he
  unfold pushGroup at hg
  by_cases h : acc.any (fun p => p.1 = key)
  · rw [if_pos h] at hg
    obtain ⟨p, hp, hfp⟩ := List.mem_map.mp hg
    by_cases hpk : p.1 = key
    · rw [if_pos hpk] at hfp
      subst hfp
      rcases List.mem_append.mp he with he | he
      · exact hacc p hp e he
      · simp at he
        subst he
        rw [hpk]
        exact hv
    · rw [if_neg hpk] at hfp
      subst hfp
      exact hacc p hp e he
  · rw [if_neg h] at hg
    rcases List.mem_append.mp hg with hg | hg
    · exact hacc g hg e he
    · have hg' : g = (key, [v]) := by simpa using hg
      subst hg'
      have he' : e = v := by simpa using he
      subst he'
      exact hv

/-- The `totalResults` reduce computes the sum of group sizes. -/
theorem foldl_add_length {α : Type} :
    ∀ (l : List (String × List α)) (n : ℕ),
      l.foldl (fun sum p => sum + p.2.length) n = n + sumLen l
  | [], n => by simp [sumLen]
  | p :: rest, n => by
    have ih := foldl_add_length rest (n + p.2.length)
    simp only [List.foldl_cons, ih, sumLen, List.map_cons, List.sum_cons]
    omega

/-- `totalResults` equals the sum of group sizes. -/
theorem totalResults_eq_sumLen (results : List (String × List Result)) :
    ResultsTable.totalResults results = sumLen results := by
  simpa [ResultsTable.totalResults] using foldl_add_length results 0

/-- Folding `pushGroup` keyed by `keyOf` keeps keys distinct. -/
theorem foldl_push_nodup {α : Type} (keyOf : α → String) :
    ∀ (l : List α) (acc : List (String × List α)), (acc.map Prod.fst).Nodup →
      ((l.foldl (fun a r => pushGroup a (keyOf r) r) acc).map Prod.fst).Nodup
  | [], _, h => h
  | r :: rest, acc, h =>
    foldl_push_nodup keyOf rest (pushGroup acc (keyOf r) r) (pushGroup_nodup _ _ _ h)

/-- Folding `pushGroup` keyed by `keyOf`: the group of `k` collects exactly
the elements keyed `k`, in input order, after whatever the accumulator held. -/
theorem foldl_push_lookup {α : Type} (keyOf : α → String) :
    ∀ (l : List α) (acc : List (String × List α)) (k : String),
      lookupGroup (l.foldl (fun a r => pushGroup a (keyOf r) r) acc) k =
        lookupGroup acc k ++ l.filter (fun r => keyOf r = k)
  | [], acc, k => by simp
  | r :: rest, acc, k => by
    have ih := foldl_push_lookup keyOf rest (pushGroup acc (keyOf r) r) k
    by_cases hk : keyOf r = k
    · rw [List.foldl_cons, ih, pushGroup_lookupGroup, if_pos hk.symm, hk]
      simp [List.filter_cons, hk]
    · rw [List.foldl_cons, ih, pushGroup_lookupGroup, if_neg (fun hkk => hk hkk.symm)]
      simp [List.filter_cons, hk]

/-- Folding `pushGroup` keyed by `keyOf` grows the total size by the number
of elements folded in. -/
theorem foldl_push_sumLen {α : Type} (keyOf : α → String) :
    ∀ (l : List α) (acc : List (String × List α)), (acc.map Prod.fst).Nodup →
      sumLen (l.foldl (fun a r => pushGroup a (keyOf r) r) acc) = sumLen acc + l.length
  | [], _, _ => by simp
  | r :: rest, acc, h => by
    have ih :=
      foldl_push_sumLen keyOf rest (pushGroup acc (keyOf r) r) (pushGroup_nodup _ _ _ h)
    rw [List.foldl_cons, ih, pushGroup_sumLen _ _ _ h]
    simp
    omega

/-- Folding `pushGroup` keyed by `keyOf`: every entry sits under its own key. -/
theorem foldl_push_forall {α : Type} (keyOf : α → String) :
    ∀ (l : List α) (acc : List (String × List α)),
      (∀ g ∈ acc, ∀ e ∈ g.2, keyOf e = g.1) →
      ∀ g ∈ l.foldl (fun a r => pushGroup a (keyOf r) r) acc, ∀ e ∈ g.2, keyOf e = g.1
  | [], _, h => h
  | r :: rest, acc, h =>
    foldl_push_forall keyOf rest (pushGroup acc (keyOf r) r)
      (pushGroup_forall (Q := fun k e => keyOf e = k) h rfl)

open App in
/-- C6: the Finding Store's groups partition the input: the sum of group
sizes is the input length, the group of each `ruleId` is exactly the
subsequence of findings with that `ruleId` in original order, every entry
sits in the group keyed by its own `ruleId`, and keys are distinct. -/
theorem c6_finding_store_partition :
    (∀ rs : List Result, ResultsTable.totalResults (groupByRuleId rs) = rs.length) ∧
    (∀ (rs : List Result) (k : String),
      lookupGroup (groupByRuleId rs) k = rs.filter (fun r => r.ruleId = k)) ∧
    (∀ rs : List Result, ∀ g ∈ groupByRuleId rs, ∀ r ∈ g.2, r.ruleId = g.1) ∧
    (∀ rs : List Result, ((groupByRuleId rs).map Prod.fst).Nodup) := by
  refine ⟨?_, ?_, ?_, ?_⟩
  · intro rs
    rw [totalResults_eq_sumLen]
    have h := foldl_push_sumLen (fun r : Result => r.ruleId) rs [] (by simp)
    simpa [groupByRuleId, sumLen] using h
  · intro rs k
    have h := foldl_push_lookup (fun r : Result => r.ruleId) rs [] k
    simpa [groupByRuleId, lookupGroup] using h
  · intro rs
    exact foldl_push_forall (fun r : Result => r.ruleId) rs [] (by simp)
  · intro rs
    exact foldl_push_nodup (fun r : Result => r.ruleId) rs [] (by simp)

open App in
/-- Witness for C6 at a concrete input of three findings over two rules. -/
theorem c6_finding_store_partition_witness :
    ResultsTable.totalResults
        (groupByRuleId [⟨"a", none⟩, ⟨"b", none⟩, ⟨"a", some "error"⟩]) = 3 ∧
    lookupGroup (groupByRuleId [⟨"a", none⟩, ⟨"b", none⟩, ⟨"a", some "error"⟩]) "a" =
      [⟨"a", none⟩, ⟨"a", some "error"⟩] ∧
    (⟨"a", some "error"⟩ : Result).ruleId =
      ("a", [(⟨"a", none⟩ : Result), ⟨"a", some "error"⟩]).1 := by
  refine ⟨c6_finding_store_partition.1 _, ?_, ?_⟩
  · have h := c6_finding_store_partition.2.1
      [⟨"a", none⟩, ⟨"b", none⟩, ⟨"a", some "error"⟩] "a"
    simpa using h
  · exact c6_finding_store_partition.2.2.1
      [⟨"a", none⟩, ⟨"b", none⟩, ⟨"a", some "error"⟩]
      ("a", [⟨"a", none⟩, ⟨"a", some "error"⟩]) (by decide)
      ⟨"a", some "error"⟩ (by decide)

open ComparisonView in
/-- Every entry of a `groupByCWE` group has its `ruleId` resolving to that
group's CWE key. -/
theorem groupByCWE_entries_resolved (run : Run) :
    ∀ (results : List (String × List Result)) (acc : CweGroups),
      (∀ g ∈ acc, ∀ e ∈ g.2, resolveCWE run e.1 = some g.1) →
      ∀ g ∈ results.foldl
          (fun acc p =>
            match getCWEFromTags (getRuleTags run p.1) with
            | some cwe => pushGroup acc cwe p
            | none => acc)
          acc,
        ∀ e ∈ g.2, resolveCWE run e.1 = some g.1
  | [], _, hacc => hacc
  | p :: rest, acc, hacc => by
    cases hres : getCWEFromTags (getRuleTags run p.1) with
    | none =>
      have h := groupByCWE_entries_resolved run rest acc hacc
      simpa [List.foldl_cons, hres] using h
    | some cwe =>
      have hstep :=
        pushGroup_forall
          (Q := fun k (e : String × List Result) => resolveCWE run e.1 = some k) hacc
          (show resolveCWE run p.1 = some cwe from hres)
      have h := groupByCWE_entries_resolved run rest (pushGroup acc cwe p) hstep
      simpa [List.foldl_cons, hres] using h

/-- A fold ignores exactly the elements its step treats as no-ops, so
filtering them away first changes nothing. -/
theorem foldl_filter_of_skip {α β : Type} (f : β → α → β) (q : α → Bool)
    (hskip : ∀ (b : β) (a : α), q a = false → f b a = b) :
    ∀ (l : List α) (b : β), (l.filter q).foldl f b = l.foldl f b
  | [], _ => rfl
  | a :: rest, b => by
    cases hq : q a with
    | true => simp [List.filter_cons, hq, foldl_filter_of_skip f q hskip rest (f b a)]
    | false => simp [List.filter_cons, hq, hskip b a hq, foldl_filter_of_skip f q hskip rest b]

open ComparisonView in
/-- C8: a rule whose resolved category is none appears in no category group
of `groupByCWE`, and deleting all of its per-rule entries from the input
leaves every group — hence every Comparison Row's counts, deltas and
overlaps — unchanged. -/
theorem c8_uncategorized_rule_excluded :
    (∀ (results : List (String × List Result)) (run : Run) (ruleId : String),
      resolveCWE run ruleId = none →
      ∀ g ∈ groupByCWE results run, ∀ e ∈ g.2, e.1 ≠ ruleId) ∧
    (∀ (results : List (String × List Result)) (run : Run) (ruleId : String),
      resolveCWE run ruleId = none →
      groupByCWE (results.filter (fun p => ¬ p.1 = ruleId)) run =
        groupByCWE results run) := by
  constructor
  · intro results run ruleId h g hg e he heq
    have hinv :=
      groupByCWE_entries_resolved run results [] (by simp) g
        (by simpa [groupByCWE] using hg) e he
    rw [heq, h] at hinv
    exact Option.noConfusion hinv
  · intro results run ruleId h
    have h' : getCWEFromTags (getRuleTags run ruleId) = none := h
    show (results.filter (fun p => ¬ p.1 = ruleId)).foldl _ [] = results.foldl _ []
    apply foldl_filter_of_skip
    intro b a ha
    have haid : a.1 = ruleId := by simpa using ha
    simp [haid, h']

open ComparisonView in
/-- Witness for C8 at a concrete input: rule `r2` has no CWE tag, so the only
group is `CWE-79` and its sole entry is not `r2`; dropping `r2` from the
input leaves the groups unchanged. -/
theorem c8_uncategorized_rule_excluded_witness :
    ("r1", [(⟨"r1", none⟩ : Result)]).1 ≠ "r2" ∧
    groupByCWE
        (([("r1", [⟨"r1", none⟩]), ("r2", [⟨"r2", none⟩])] :
            List (String × List Result)).filter (fun p => ¬ p.1 = "r2"))
        { toolName := "t"
          rules := some [{ id := "r1", defaultLevel := none, tags := some ["CWE-79"] },
            { id := "r2", defaultLevel := none, tags := some ["other"] }] } =
      groupByCWE [("r1", [⟨"r1", none⟩]), ("r2", [⟨"r2", none⟩])]
        { toolName := "t"
          rules := some [{ id := "r1", defaultLevel := none, tags := some ["CWE-79"] },
            { id := "r2", defaultLevel := none, tags := some ["other"] }] } := by
  constructor
  · exact c8_uncategorized_rule_excluded.1
      [("r1", [⟨"r1", none⟩]), ("r2", [⟨"r2", none⟩])]
      { toolName := "t"
        rules := some [{ id := "r1", defaultLevel := none, tags := some ["CWE-79"] },
          { id := "r2", defaultLevel := none, tags := some ["other"] }] }
      "r2" rfl
      ("CWE-79", [("r1", [⟨"r1", none⟩])]) (by decide)
      ("r1", [⟨"r1", none⟩]) (by decide)
  · exact c8_uncategorized_rule_excluded.2
      [("r1", [⟨"r1", none⟩]), ("r2", [⟨"r2", none⟩])]
      { toolName := "t"
        rules := some [{ id := "r1", defaultLevel := none, tags := some ["CWE-79"] },
          { id := "r2", defaultLevel := none, tags := some ["other"] }] }
      "r2" rfl

open ComparisonView in
/-- Membership in one `insertUniq` step. -/
theorem mem_insertUniq (acc : List String) (c x : String) :
    x ∈ insertUniq acc c ↔ x ∈ acc ∨ x = c := by
  by_cases h : c ∈ acc
  · simp only [insertUniq, if_pos h]
    constructor
    · exact Or.inl
    · rintro (hx | rfl)
      · exact hx
      · exact h
  · simp [insertUniq, if_neg h]

open ComparisonView in
/-- `insertUniq` preserves distinctness. -/
theorem nodup_insertUniq (acc : List String) (c : String) (h : acc.Nodup) :
    (insertUniq acc c).Nodup := by
  by_cases hc : c ∈ acc
  · simpa [insertUniq, if_pos hc] using h
  · simp [insertUniq, if_neg hc, List.nodup_append, h, hc]

open ComparisonView in
/-- The `Set` fold yields a duplicate-free list. -/
theorem foldl_insertUniq_nodup :
    ∀ (l acc : List String), acc.Nodup → (l.foldl insertUniq acc).Nodup
  | [], _, h => h
  | c :: rest, acc, h =>
    foldl_insertUniq_nodup rest (insertUniq acc c) (nodup_insertUniq acc c h)

open ComparisonView in
/-- Membership through the `Set` fold. -/
theorem mem_foldl_insertUniq :
    ∀ (l acc : List String) (x : String), x ∈ l.foldl insertUniq acc ↔ x ∈ acc ∨ x ∈ l
  | [], _, x => by simp
  | c :: rest, acc, x => by
    rw [List.foldl_cons, mem_foldl_insertUniq rest (insertUniq acc c) x, mem_insertUniq]
    simp only [List.mem_cons]
    tauto

open ComparisonView in
/-- `setDedup` preserves membership and removes duplicates. -/
theorem setDedup_spec (l : List String) :
    (setDedup l).Nodup ∧ ∀ x, x ∈ setDedup l ↔ x ∈ l := by
  refine ⟨foldl_insertUniq_nodup l [] (by simp), fun x => ?_⟩
  simpa using mem_foldl_insertUniq l [] x

/-- The string order used for category sorting is transitive on the Bool
level. -/
theorem stringLe_trans (a b c : String) :
    decide (a ≤ b) = true → decide (b ≤ c) = true → decide (a ≤ c) = true := by
  simp only [decide_eq_true_eq]
  exact le_trans

/-- The string order used for category sorting is total on the Bool level. -/
theorem stringLe_total (a b : String) :
    (decide (a ≤ b) || decide (b ≤ a)) = true := by
  simp only [Bool.or_eq_true, decide_eq_true_eq]
  exact le_total a b

open ComparisonView in
/-- Projection of a Comparison Row onto its category. -/
theorem summaryRow_cwe (cweGroups : List CweGroups) (cwe : String) :
    (summaryRow cweGroups cwe).cwe = cwe := rfl

open ComparisonView in
/-- C4: the Comparison Engine emits exactly one Comparison Row per category
in the union of all datasets' category keys, in sorted order without
duplicates, and a row's count is `0` for every dataset lacking that
category. -/
theorem c4_rows_union_sorted :
    (∀ sarifs : List Sarif, (allCWEs sarifs).Nodup) ∧
    (∀ sarifs : List Sarif, List.Pairwise (fun a b : String => a ≤ b) (allCWEs sarifs)) ∧
    (∀ (sarifs : List Sarif) (c : String),
      c ∈ allCWEs sarifs ↔ ∃ g ∈ cweGroupsOf sarifs, c ∈ g.map Prod.fst) ∧
    (∀ sarifs : List Sarif, (summaryData sarifs).map SummaryRow.cwe = allCWEs sarifs) ∧
    (∀ (sarifs : List Sarif) (c : String) (j : ℕ), j < sarifs.length →
      c ∉ ((cweGroupsOf sarifs).getD j []).map Prod.fst →
      (summaryRow (cweGroupsOf sarifs) c).findings.getD j 0 = 0) := by
  refine ⟨?_, ?_, ?_, ?_, ?_⟩
  · intro sarifs
    have hperm :=
      List.mergeSort_perm
        (setDedup ((cweGroupsOf sarifs).flatMap (fun group => group.map Prod.fst)))
        (fun a b => a ≤ b)
    exact hperm.nodup_iff.mpr (setDedup_spec _).1
  · intro sarifs
    have hs :=
      @List.sorted_mergeSort String (fun a b : String => decide (a ≤ b))
        stringLe_trans stringLe_total
        (setDedup ((cweGroupsOf sarifs).flatMap (fun group => group.map Prod.fst)))
    exact hs.imp (fun hab => by simpa using hab)
  · intro sarifs c
    rw [allCWEs, List.mem_mergeSort, (setDedup_spec _).2, List.mem_flatMap]
  · intro sarifs
    rw [summaryData, List.map_map]
    have : (SummaryRow.cwe ∘ summaryRow (cweGroupsOf sarifs)) = id := by
      funext c
      simp [summaryRow_cwe]
    rw [this, List.map_id]
  · intro sarifs c j hj hnot
    have hj' : j < (cweGroupsOf sarifs).length := by simpa [cweGroupsOf] using hj
    have hget : (cweGroupsOf sarifs)[j]? = some (cweGroupsOf sarifs)[j] :=
      List.getElem?_eq_getElem hj'
    have hgd : (cweGroupsOf sarifs).getD j [] = (cweGroupsOf sarifs)[j] := by
      rw [List.getD_eq_getElem?_getD, hget]
      rfl
    rw [hgd] at hnot
    have hnone : ((cweGroupsOf sarifs)[j]).find? (fun p => p.1 = c) = none := by
      apply List.find?_eq_none.mpr
      intro p hp
      simp only [decide_eq_true_eq]
      intro hpc
      exact hnot (List.mem_map.mpr ⟨p, hp, hpc⟩)
    show ((cweGroupsOf sarifs).map (fun group => countForCWE group c)).getD j 0 = 0
    rw [List.getD_eq_getElem?_getD, List.getElem?_map, hget]
    simp [countForCWE, hnone]

open ComparisonView in
/-- Witness for C4 at a concrete input: one empty dataset has no entry for
`CWE-99`, so that row position counts `0`. -/
theorem c4_rows_union_sorted_witness :
    (summaryRow (cweGroupsOf [{ results := [], run := { toolName := "t", rules := none } }])
        "CWE-99").findings.getD 0 0 = 0 :=
  c4_rows_union_sorted.2.2.2.2
    [{ results := [], run := { toolName := "t", rules := none } }] "CWE-99" 0
    (by decide) (by decide)

/-- The `averageOverlaps` reduce computes a sum over the rows. -/
theorem foldl_add_rat {α : Type} (f : α → ℚ) :
    ∀ (l : List α) (init : ℚ), l.foldl (fun acc d => acc + f d) init = init + (l.map f).sum
  | [], init => by simp
  | d :: rest, init => by
    have ih := foldl_add_rat f rest (init + f d)
    simp only [List.foldl_cons, ih, List.map_cons, List.sum_cons]
    ring

/-- Positional value of a map over `List.range`. -/
theorem range_map_getD (g : ℕ → ℚ) (n i : ℕ) (h : i < n) :
    ((List.range n).map g).getD i 0 = g i := by
  rw [List.getD_eq_getElem?_getD, List.getElem?_map, List.getElem?_range h]
  rfl

open ComparisonView in
/-- C1 (amended): with at least one Comparison Row, `averageOverlaps` has one
entry per pairing index of the first row and each entry is the arithmetic
mean of `overlaps[i]` over all rows; with zero rows the list is empty — there
is no per-pairing `0` entry. -/
theorem c1_average_overlaps_amended :
    (∀ sarifs : List Sarif, summaryData sarifs = [] → averageOverlaps sarifs = []) ∧
    (∀ (sarifs : List Sarif) (r0 : SummaryRow) (rest : List SummaryRow),
      summaryData sarifs = r0 :: rest →
      (averageOverlaps sarifs).length = r0.overlaps.length ∧
      ∀ i : ℕ, i < r0.overlaps.length →
        (averageOverlaps sarifs).getD i 0 =
          ((summaryData sarifs).map (fun d => d.overlaps.getD i 0)).sum /
            ((summaryData sarifs).length : ℚ)) := by
  constructor
  · intro sarifs h
    simp [averageOverlaps, h]
  · intro sarifs r0 rest h
    constructor
    · simp [averageOverlaps, h]
    · intro i hi
      simp only [averageOverlaps, h, List.head?_cons]
      rw [range_map_getD _ _ _ hi]
      have hsum := foldl_add_rat (fun d : SummaryRow => d.overlaps.getD i 0) (r0 :: rest) 0
      simp only [hsum, zero_add]
      rw [if_pos (by simp)]

open ComparisonView in
/-- Counterexample for C1 as stated: two datasets with no categorized rule
give zero Comparison Rows, and `averageOverlaps` is then the empty list, not
the claimed one `0` per dataset pairing. -/
theorem c1_zero_rows_counterexample :
    summaryData
        [{ results := [], run := { toolName := "t1", rules := none } },
          { results := [], run := { toolName := "t2", rules := none } }] = [] ∧
    averageOverlaps
        [{ results := [], run := { toolName := "t1", rules := none } },
          { results := [], run := { toolName := "t2", rules := none } }] = [] ∧
    averageOverlaps
        [{ results := [], run := { toolName := "t1", rules := none } },
          { results := [], run := { toolName := "t2", rules := none } }] ≠ [(0 : ℚ)] := by
  have h0 :
      summaryData
          [{ results := [], run := { toolName := "t1", rules := none } },
            { results := [], run := { toolName := "t2", rules := none } }] = [] := by
    simp [summaryData, allCWEs, cweGroupsOf, groupByCWE, setDedup]
  have h1 :
      averageOverlaps
          [{ results := [], run := { toolName := "t1", rules := none } },
            { results := [], run := { toolName := "t2", rules := none } }] = [] := by
    simp [averageOverlaps, h0]
  refine ⟨h0, h1, ?_⟩
  rw [h1]
  intro hc
  exact List.noConfusion hc

open ComparisonView in
/-- Witness for C1 (amended) at a concrete input: two empty datasets give
zero rows and an empty `averageOverlaps`. -/
theorem c1_average_overlaps_amended_witness :
    averageOverlaps
        [{ results := [], run := { toolName := "t1", rules := none } },
          { results := [], run := { toolName := "t2", rules := none } }] = [] :=
  c1_average_overlaps_amended.1
    [{ results := [], run := { toolName := "t1", rules := none } },
      { results := [], run := { toolName := "t2", rules := none } }]
    (by simp [summaryData, allCWEs, cweGroupsOf, groupByCWE, setDedup])

/-- A successful `tryMatch` capture is a nonempty digit run. -/
theorem tryMatch_digits (s ds : List Char) (h : tryMatch s = some ds) :
    ds ≠ [] ∧ ∀ c ∈ ds, c.isDigit := by
  unfold tryMatch at h
  split at h
  · next c1 c2 c3 sep rest =>
    by_cases h1 : c1 = 'C' ∧ c2 = 'W' ∧ c3 = 'E' ∧ (sep = '-' ∨ sep = ':')
    · rw [if_pos h1] at h
      simp only [List.isEmpty_iff] at h
      by_cases h2 : rest.takeWhile Char.isDigit = []
      · rw [if_pos h2] at h
        exact absurd h (by simp)
      · rw [if_neg h2] at h
        have hds : rest.takeWhile Char.isDigit = ds := by simpa using h
        subst hds
        exact ⟨h2, fun c hc => List.mem_takeWhile_imp hc⟩
    · rw [if_neg h1] at h
      exact absurd h (by simp)
  · exact absurd h (by simp)

/-- A successful `firstCWEMatch` capture is a nonempty digit run. -/
theorem firstCWEMatch_digits :
    ∀ (s ds : List Char), firstCWEMatch s = some ds → ds ≠ [] ∧ ∀ c ∈ ds, c.isDigit
  | [], ds, h => by simp [firstCWEMatch] at h
  | c :: rest, ds, h => by
    rw [firstCWEMatch] at h
    cases htm : tryMatch (c :: rest) with
    | some ds' =>
      rw [htm] at h
      have hds : ds' = ds := by simpa using h
      subst hds
      exact tryMatch_digits _ _ htm
    | none =>
      rw [htm] at h
      exact firstCWEMatch_digits rest ds h

/-- `takeWhile` keeps a list all of whose elements pass. -/
theorem takeWhile_all (p : Char → Bool) :
    ∀ l : List Char, (∀ c ∈ l, p c = true) → l.takeWhile p = l
  | [], _ => rfl
  | c :: rest, h => by
    simp [List.takeWhile_cons, h c (by simp),
      takeWhile_all p rest (fun x hx => h x (by simp [hx]))]

/-- The anchored regex attempt succeeds on `CWE<sep><digits>`. -/
theorem tryMatch_of_form (sep : Char) (hsep : sep = '-' ∨ sep = ':') (ds : List Char)
    (hne : ds ≠ []) (hdig : ∀ c ∈ ds, c.isDigit) :
    tryMatch ('C' :: 'W' :: 'E' :: sep :: ds) = some ds := by
  have htw : ds.takeWhile Char.isDigit = ds := takeWhile_all _ ds hdig
  rcases hsep with rfl | rfl <;>
    simp [tryMatch, htw, List.isEmpty_iff, hne]

/-- The regex search succeeds immediately on `CWE<sep><digits>`. -/
theorem firstCWEMatch_of_form (sep : Char) (hsep : sep = '-' ∨ sep = ':') (ds : List Char)
    (hne : ds ≠ []) (hdig : ∀ c ∈ ds, c.isDigit) :
    firstCWEMatch ('C' :: 'W' :: 'E' :: sep :: ds) = some ds := by
  rw [firstCWEMatch, tryMatch_of_form sep hsep ds hne hdig]

/-- A matched pattern start is contained in the string. -/
theorem startsWithChars_mem :
    ∀ (pre s : List Char), startsWithChars pre s = true → ∀ x ∈ pre, x ∈ s
  | [], _, _, x, hx => by simp at hx
  | p :: ps, [], h, _, _ => by simp [startsWithChars] at h
  | p :: ps, c :: cs, h, x, hx => by
    rw [startsWithChars, Bool.and_eq_true] at h
    have hpc : p = c := by simpa using h.1
    rcases List.mem_cons.mp hx with rfl | hx
    · simp [hpc]
    · exact List.mem_cons_of_mem c (startsWithChars_mem ps cs h.2 x hx)

/-- `replace` leaves a string untouched when some pattern character never
occurs in it. -/
theorem replFirst_of_no_occur (pat rep : List Char) (a : Char) (ha : a ∈ pat) :
    ∀ s : List Char, a ∉ s → replFirst pat rep s = s
  | [], _ => by
    cases pat with
    | nil => simp at ha
    | cons p ps => simp [replFirst, startsWithChars]
  | c :: cs, hnot => by
    rw [replFirst]
    have hsw : startsWithChars pat (c :: cs) = false := by
      cases hsw : startsWithChars pat (c :: cs) with
      | false => rfl
      | true => exact absurd (startsWithChars_mem pat (c :: cs) hsw a ha) hnot
    rw [hsw]
    simp [replFirst_of_no_occur pat rep a ha cs (fun hmem => hnot (by simp [hmem]))]

/-- `dropWhile` is the identity when every element fails the test. -/
theorem dropWhile_all_false (p : Char → Bool) (l : List Char)
    (h : ∀ c ∈ l, p c = false) : l.dropWhile p = l := by
  cases l with
  | nil => rfl
  | cons c rest => simp [List.dropWhile_cons, h c (by simp)]

/-- `trim` is the identity on whitespace-free strings. -/
theorem jsTrim_of_no_ws (s : List Char) (h : ∀ c ∈ s, isWS c = false) : jsTrim s = s := by
  unfold jsTrim
  rw [dropWhile_all_false isWS s h]
  rw [dropWhile_all_false isWS s.reverse (fun c hc => h c (List.mem_reverse.mp hc))]
  exact List.reverse_reverse s

/-- Digits are not trimmed as whitespace. -/
theorem digit_not_ws (c : Char) (h : c.isDigit = true) : isWS c = false := by
  cases hws : isWS c with
  | false => rfl
  | true =>
    exfalso
    have hc : ((c = ' ' ∨ c = '\t') ∨ c = '\n') ∨ c = '\r' := by
      simpa [isWS] using hws
    rcases hc with ((rfl | rfl) | rfl) | rfl <;> exact absurd h (by decide)

/-- Digits are not the colon character. -/
theorem digit_ne_colon (c : Char) (h : c.isDigit = true) : c ≠ ':' := by
  intro hc
  subst hc
  exact absurd h (by decide)

/-- Characters of a well-formed `CWE<sep><digits>` tag are never trimmed. -/
theorem cwe_form_no_ws (sep : Char) (hsep : sep = '-' ∨ sep = ':') (ds : List Char)
    (hdig : ∀ c ∈ ds, c.isDigit) :
    ∀ c ∈ ('C' :: 'W' :: 'E' :: sep :: ds), isWS c = false := by
  intro c hc
  rcases List.mem_cons.mp hc with rfl | hc
  · decide
  rcases List.mem_cons.mp hc with rfl | hc
  · decide
  rcases List.mem_cons.mp hc with rfl | hc
  · decide
  rcases List.mem_cons.mp hc with rfl | hc
  · rcases hsep with rfl | rfl <;> decide
  · exact digit_not_ws c (hdig c hc)

/-- A `CWE-<digits>` tag contains no colon, so `replace('CWE:', ...)` cannot
fire inside it. -/
theorem cwe_dash_no_colon (ds : List Char) (hdig : ∀ c ∈ ds, c.isDigit) :
    ':' ∉ ('C' :: 'W' :: 'E' :: '-' :: ds) := by
  intro hc
  rcases List.mem_cons.mp hc with h | hc
  · exact absurd h (by decide)
  rcases List.mem_cons.mp hc with h | hc
  · exact absurd h (by decide)
  rcases List.mem_cons.mp hc with h | hc
  · exact absurd h (by decide)
  rcases List.mem_cons.mp hc with h | hc
  · exact absurd h (by decide)
  · exact absurd (hdig ':' hc) (by decide)

/-- The `CWE:` pattern matches at the start of a `CWE:<suffix>` tag. -/
theorem startsWith_cwe_colon (ds : List Char) :
    startsWithChars "CWE:".data ('C' :: 'W' :: 'E' :: ':' :: ds) = true := by
  show startsWithChars ['C', 'W', 'E', ':'] ('C' :: 'W' :: 'E' :: ':' :: ds) = true
  simp [startsWithChars]

open ComparisonView in
/-- C2 (amended): the comparison path's resolver alone guarantees the
claimed behaviour — any category it returns is a normalized nonempty
`CWE-<digits>` and a selected tag with no digit match yields none — and the
two resolvers agree whenever the selected tag is exactly `CWE-<digits>` or
`CWE:<digits>`; they are not extensionally equal in general, since the
per-rule summary path returns the selected tag with its first `CWE:`
replaced by `CWE-` and trimmed, digits or not. -/
theorem c2_resolver_equivalence_amended :
    (∀ (tags : List String) (c : String),
      getCWEFromTags tags = some c →
      ∃ ds : List Char, ds ≠ [] ∧ (∀ ch ∈ ds, ch.isDigit) ∧
        c = "CWE-" ++ String.mk ds) ∧
    (∀ (tags : List String) (t : String),
      tags.find? hasCWEPrefixTag = some t → firstCWEMatch t.data = none →
      getCWEFromTags tags = none) ∧
    (∀ (tags : List String) (sep : Char) (ds : List Char),
      (sep = '-' ∨ sep = ':') → ds ≠ [] → (∀ ch ∈ ds, ch.isDigit) →
      tags.find? hasCWEPrefixTag = some (String.mk ('C' :: 'W' :: 'E' :: sep :: ds)) →
      ResultsTable.getCWEFromTags tags = getCWEFromTags tags ∧
      ResultsTable.getCWEFromTags tags = some ("CWE-" ++ String.mk ds)) := by
  refine ⟨?_, ?_, ?_⟩
  · intro tags c h
    cases hfind : tags.find? hasCWEPrefixTag with
    | none =>
      simp only [getCWEFromTags, hfind] at h
      exact Option.noConfusion h
    | some t =>
      simp only [getCWEFromTags, hfind] at h
      cases hm : firstCWEMatch t.data with
      | none =>
        simp only [hm] at h
        exact Option.noConfusion h
      | some ds =>
        simp only [hm, Option.some.injEq] at h
        have hds := firstCWEMatch_digits t.data ds hm
        exact ⟨ds, hds.1, hds.2, h.symm⟩
  · intro tags t hfind hm
    simp [getCWEFromTags, hfind, hm]
  · intro tags sep ds hsep hne hdig hfind
    have htdata : (String.mk ('C' :: 'W' :: 'E' :: sep :: ds)).data =
        'C' :: 'W' :: 'E' :: sep :: ds := rfl
    have hcmp : getCWEFromTags tags = some ("CWE-" ++ String.mk ds) := by
      simp only [getCWEFromTags, hfind, htdata,
        firstCWEMatch_of_form sep hsep ds hne hdig]
    have hrt : ResultsTable.getCWEFromTags tags = some ("CWE-" ++ String.mk ds) := by
      rcases hsep with rfl | rfl
      · have hrepl :
            replFirst "CWE:".data "CWE-".data ('C' :: 'W' :: 'E' :: '-' :: ds) =
              'C' :: 'W' :: 'E' :: '-' :: ds :=
          replFirst_of_no_occur _ _ ':' (by decide) _ (cwe_dash_no_colon ds hdig)
        have htrim := jsTrim_of_no_ws _ (cwe_form_no_ws '-' (Or.inl rfl) ds hdig)
        simp only [ResultsTable.getCWEFromTags, hfind, htdata, hrepl, htrim]
        rfl
      · have hrepl :
            replFirst "CWE:".data "CWE-".data ('C' :: 'W' :: 'E' :: ':' :: ds) =
              'C' :: 'W' :: 'E' :: '-' :: ds := by
          rw [replFirst, if_pos (startsWith_cwe_colon ds)]
          rfl
        have htrim := jsTrim_of_no_ws _ (cwe_form_no_ws '-' (Or.inl rfl) ds hdig)
        simp only [ResultsTable.getCWEFromTags, hfind, htdata, hrepl, htrim]
        rfl
    exact ⟨by rw [hrt, hcmp], hrt⟩

/-- Counterexample for C2 as stated: on the tag list `["CWE-Hello"]` the two
resolvers disagree — the summary path returns the raw tag, the comparison
path returns none. -/
theorem c2_resolver_equivalence_counterexample :
    ResultsTable.getCWEFromTags ["CWE-Hello"] = some "CWE-Hello" ∧
    ComparisonView.getCWEFromTags ["CWE-Hello"] = none ∧
    ResultsTable.getCWEFromTags ["CWE-Hello"] ≠
      ComparisonView.getCWEFromTags ["CWE-Hello"] := by
  refine ⟨rfl, rfl, ?_⟩
  intro hc
  exact Option.noConfusion (show (some "CWE-Hello" : Option String) = none from hc)

/-- Witness for C2 (amended) at a concrete input: on `["CWE:79"]` both
resolvers return `CWE-79`. -/
theorem c2_resolver_equivalence_amended_witness :
    ResultsTable.getCWEFromTags ["CWE:79"] = ComparisonView.getCWEFromTags ["CWE:79"] ∧
    ResultsTable.getCWEFromTags ["CWE:79"] = some "CWE-79" := by
  have h := c2_resolver_equivalence_amended.2.2 ["CWE:79"] ':' ['7', '9']
    (Or.inr rfl) (by decide) (by decide) rfl
  exact ⟨h.1, h.2⟩
